import Mathlib

/-!
Verification of the table/database engine of `src/rest.py` (classes
`DynamicTable` and `Database`, plus the row-deletion route handler).

Modelling conventions, chosen to follow the Python source line by line:

* A Python value stored in a table is one of `str`, `int`, `bool`, `float`
  or `None` (the absent marker).  We embed these as the tagged inductive
  `Value`.  The payload of a `float` is modelled as a rational number;
  no claim depends on float arithmetic or float text rendering, only on
  the tag existing.  (IEEE special values such as NaN, which break
  reflexivity of equality, are outside the model.)
* A column type is one of the four type tags.  (In the source a column
  type is an arbitrary Python type object produced by `eval`; every claim
  under scrutiny concerns tables whose columns carry one of the four
  supported tags, which is exactly what the embedding covers.)
* Python's `isinstance` is embedded by `isinst`.  Crucially,
  `isinstance(True, int)` is `True` in Python because `bool` is a
  subclass of `int`; the embedding reproduces this.
* Python's `==` on stored values is embedded by `pyEq`: numeric values
  (`int`, `bool`, `float`) compare by numeric value across tags
  (`True == 1`, `1.0 == 1`), strings compare with strings, and
  `None == None` holds.  `remove_duplicates` uses this equality through
  its `set` of row tuples.
* A row (a Python `dict`) is an insertion-ordered association list with
  unique keys: `dictSet` overwrites in place or appends a fresh key at
  the end, `dictDel` removes a key, `dictGet` looks one up — exactly the
  semantics of `row[k] = v`, `del row[k]`, `row.get(k, default)`.
  (`del row[k]` and `row[k]` raise `KeyError` on a missing key in Python;
  the total embeddings below are only ever applied, in the claims, to
  tables satisfying the lockstep invariant, where the key is present.)
* Each mutating operation raises before it mutates or mutates wholesale,
  so an operation is embedded as a function `… → Option Err × Table`
  returning the error (if any) together with the table as it stands when
  the function returns or the exception is raised.
* Row indices come from Flask's `<int:…>` URL converter, which matches
  only non-negative integers, so indices are embedded as `Nat`.
* `display_table` prints lines; it is embedded as the list of strings
  passed to `print`, in order.
-/

/-- The closed set of column type tags supported by the engine
(`str`, `int`, `bool`, `float`). -/
inductive TypeTag where
  | str
  | int
  | bool
  | float
deriving DecidableEq, Repr

/-- A stored Python value: a string, an integer, a boolean, a float, or
the absent marker `None` (constructor `vnone`). -/
inductive Value where
  | str (s : String)
  | int (n : Int)
  | bool (b : Bool)
  | float (q : Rat)
  | vnone
deriving DecidableEq, Repr

/-- Python's `isinstance(value, column_type)` for the four supported
column types.  `bool` is a subclass of `int` in Python, so a boolean
satisfies an `int` column; `int` is not a subclass of `float`; `None`
is an instance of none of the four types. -/
def isinst : Value → TypeTag → Bool
  | .str _, .str => true
  | .int _, .int => true
  | .bool _, .int => true
  | .bool _, .bool => true
  | .float _, .float => true
  | _, _ => false

/-- The numeric content of a value, if it has one: Python treats `int`,
`bool` and `float` as one numeric tower for `==` (`True == 1`,
`1.0 == 1`). -/
def numVal : Value → Option Rat
  | .int n => some n
  | .bool b => some (if b then 1 else 0)
  | .float q => some q
  | _ => none

/-- Python's `==` on stored values. -/
def pyEq (v w : Value) : Bool :=
  match v, w with
  | .str a, .str b => a = b
  | .vnone, .vnone => true
  | _, _ =>
    match numVal v, numVal w with
    | some a, some b => a = b
    | _, _ => false

/-- Python's `str(value)` as used by `display_table`:
`str("x") = "x"`, `str(25) = "25"`, `str(True) = "True"`,
`str(None) = "None"`.  (The text rendering of a float payload is
abstracted as `toString` of the rational; no claim depends on it.) -/
def pyStr : Value → String
  | .str s => s
  | .int n => toString n
  | .bool b => if b then "True" else "False"
  | .float q => toString q
  | .vnone => "None"

/-- The name Python's `type(value)` reports, used in `TypeMismatch`
error payloads. -/
def typeName : Value → String
  | .str _ => "str"
  | .int _ => "int"
  | .bool _ => "bool"
  | .float _ => "float"
  | .vnone => "NoneType"

/-- A row: a Python `dict` from column name to value, i.e. an
insertion-ordered association list with unique keys. -/
abbrev Row := List (String × Value)

/-- `row[k] = v`: overwrite the value in place if the key exists
(keeping its position), otherwise append the new key at the end. -/
def dictSet : Row → String → Value → Row
  | [], k, v => [(k, v)]
  | (k', v') :: r, k, v =>
    if k' = k then (k, v) :: r else (k', v') :: dictSet r k v

/-- `del row[k]`: remove the (first) entry with the given key. -/
def dictDel : Row → String → Row
  | [], _ => []
  | (k', v') :: r, k =>
    if k' = k then r else (k', v') :: dictDel r k

/-- `row.get(k)`: look up a key. -/
def dictGet : Row → String → Option Value
  | [], _ => Option.none
  | (k', v) :: r, k => if k' = k then some v else dictGet r k

/-- `dict(pairs)`: build a dict from a pair list (later values win at
the first occurrence's position, as in Python). -/
def dictOfPairs (ps : List (String × Value)) : Row :=
  ps.foldl (fun d kv => dictSet d kv.1 kv.2) []

/-- The error kinds the engine raises (§7 of the spec's taxonomy). -/
inductive Err where
  | DuplicateColumn (c : String)
  | UnknownColumn (c : String)
  | ArityMismatch
  | TypeMismatch (c : String) (expected : TypeTag) (actual : String)
  | IndexOutOfBounds
  | DuplicateTable (n : String)
  | UnknownTable (n : String)
deriving DecidableEq, Repr

/-- `DynamicTable`: a column schema (`column_info`) and an ordered list
of rows. -/
structure Table where
  column_info : List (String × TypeTag)
  rows : List Row
deriving DecidableEq, Repr

namespace Table

/-- The table's column names in schema order
(`[col[0] for col in self.column_info]`). -/
def colNames (t : Table) : List String :=
  t.column_info.map Prod.fst

/-- `DynamicTable.add_column`: reject a duplicate name, otherwise append
the column to the schema and give every existing row a `None` entry for
it. -/
def add_column (t : Table) (c : String) (ty : TypeTag) : Option Err × Table :=
  if c ∈ t.colNames then
    (some (.DuplicateColumn c), t)
  else
    (Option.none,
      { column_info := t.column_info ++ [(c, ty)],
        rows := t.rows.map (fun r => dictSet r c Value.vnone) })

/-- `DynamicTable.delete_column`: reject an unknown name, otherwise
delete the schema entry at the name's first index and delete the key
from every row. -/
def delete_column (t : Table) (c : String) : Option Err × Table :=
  if c ∈ t.colNames then
    (Option.none,
      { column_info := t.column_info.eraseIdx (t.colNames.indexOf c),
        rows := t.rows.map (fun r => dictDel r c) })
  else
    (some (.UnknownColumn c), t)

/-- The validation loop shared by `add_row` and `update_row`: walk the
columns in order and raise `TypeMismatch` at the first position whose
value fails `isinstance`.  (The source indexes `values[i]`; under the
arity check the two lists have equal length, so the third branch is
unreachable there.) -/
def validate_values : List (String × TypeTag) → List Value → Option Err
  | [], _ => Option.none
  | (c, ty) :: cols, v :: vs =>
    if isinst v ty then validate_values cols vs
    else some (.TypeMismatch c ty (typeName v))
  | _ :: _, [] => Option.none

/-- `DynamicTable.add_row`: check arity, validate every value against
its column's type, then append `dict(zip(column_names, values))`. -/
def add_row (t : Table) (vs : List Value) : Option Err × Table :=
  if vs.length ≠ t.column_info.length then
    (some .ArityMismatch, t)
  else
    match validate_values t.column_info vs with
    | some e => (some e, t)
    | Option.none =>
      (Option.none, { t with rows := t.rows ++ [dictOfPairs (t.colNames.zip vs)] })

/-- `DynamicTable.update_row`: check the index, then the same arity and
type validation as `add_row`, then replace the row at the index
wholesale. -/
def update_row (t : Table) (i : Nat) (vs : List Value) : Option Err × Table :=
  if i ≥ t.rows.length then
    (some .IndexOutOfBounds, t)
  else if vs.length ≠ t.column_info.length then
    (some .ArityMismatch, t)
  else
    match validate_values t.column_info vs with
    | some e => (some e, t)
    | Option.none =>
      (Option.none, { t with rows := t.rows.set i (dictOfPairs (t.colNames.zip vs)) })

/-- The route handler `delete_row` (the engine has no method of its own):
`del dynamic_table.rows[row_index]`, answering `IndexOutOfBounds` when
the `del` raises `IndexError`. -/
def delete_row (t : Table) (i : Nat) : Option Err × Table :=
  if i < t.rows.length then
    (Option.none, { t with rows := t.rows.eraseIdx i })
  else
    (some .IndexOutOfBounds, t)

/-- The comparison key of a row: `tuple(row[column] for column, _ in
self.column_info)`.  (`row[column]` raises `KeyError` on a missing key;
the `Option` result keeps the embedding total, and a missing key never
occurs on tables satisfying the lockstep invariant.) -/
def rowKey (cols : List (String × TypeTag)) (r : Row) : List (Option Value) :=
  cols.map (fun c => dictGet r c.1)

/-- Equality of row keys, i.e. Python `==` on the value tuples:
pointwise `pyEq`. -/
def keyEq (k1 k2 : List (Option Value)) : Bool :=
  k1.length = k2.length &&
    (k1.zip k2).all (fun p =>
      match p.1, p.2 with
      | some v, some w => pyEq v w
      | Option.none, Option.none => true
      | _, _ => false)

/-- `key_values in seen_rows`: membership in the seen set is existence
of a `==`-equal element. -/
def memKey (k : List (Option Value)) (seen : List (List (Option Value))) : Bool :=
  seen.any (fun s => keyEq k s)

/-- The scan loop of `remove_duplicates`: keep a row iff its key tuple
is not in the seen set, adding each new key to the set. -/
def dedupLoop (cols : List (String × TypeTag))
    (seen : List (List (Option Value))) (acc : List Row) :
    List Row → List Row
  | [] => acc
  | r :: rs =>
    let key := rowKey cols r
    if memKey key seen then
      dedupLoop cols seen acc rs
    else
      dedupLoop cols (key :: seen) (acc ++ [r]) rs

/-- `DynamicTable.remove_duplicates`: replace the rows by the scan's
output.  It raises nothing. -/
def remove_duplicates (t : Table) : Option Err × Table :=
  (Option.none, { t with rows := dedupLoop t.column_info [] [] t.rows })

/-- One cell of a display line:
`str(row.get(column[0], ""))` — the stored value rendered by `str`
when the key is present (so a stored `None` renders as `"None"`), the
empty string when the key is missing. -/
def displayCell (r : Row) (c : String) : String :=
  match dictGet r c with
  | some v => pyStr v
  | Option.none => ""

/-- `DynamicTable.display_table` as the list of printed lines: the
header (column names joined by `"|"`), a divider of `"-"` repeated to
the header's length, then one line per row in row order. -/
def display_table (t : Table) : List String :=
  let header := String.intercalate "|" t.colNames
  header ::
    String.mk (List.replicate header.length '-') ::
      t.rows.map (fun r =>
        String.intercalate "|" (t.column_info.map (fun c => displayCell r c.1)))

end Table

/-- `Database`: an insertion-ordered mapping from table name to table. -/
structure Database where
  tables : List (String × Table)
deriving DecidableEq, Repr

namespace Database

/-- `Database.add_table`: reject a taken name, otherwise bind the name
to a fresh empty table with the given column list.  No validation of
the column list is performed. -/
def add_table (db : Database) (name : String)
    (cols : List (String × TypeTag)) : Option Err × Database :=
  if name ∈ db.tables.map Prod.fst then
    (some (.DuplicateTable name), db)
  else
    (Option.none, { tables := db.tables ++ [(name, { column_info := cols, rows := [] })] })

/-- `Database.remove_table`: reject an absent name, otherwise remove
the binding. -/
def remove_table (db : Database) (name : String) : Option Err × Database :=
  if name ∈ db.tables.map Prod.fst then
    (Option.none, { tables := db.tables.filter (fun p => p.1 ≠ name) })
  else
    (some (.UnknownTable name), db)

end Database

/-- A single engine operation on one table, for reasoning about
operation sequences. -/
inductive Op where
  | AddColumn (c : String) (ty : TypeTag)
  | DeleteColumn (c : String)
  | AddRow (vs : List Value)
  | UpdateRow (i : Nat) (vs : List Value)
  | DeleteRow (i : Nat)
  | RemoveDuplicates
deriving DecidableEq, Repr

/-- Apply one operation to a table, yielding the error (if any) and the
post-state. -/
def applyOp (t : Table) : Op → Option Err × Table
  | .AddColumn c ty => t.add_column c ty
  | .DeleteColumn c => t.delete_column c
  | .AddRow vs => t.add_row vs
  | .UpdateRow i vs => t.update_row i vs
  | .DeleteRow i => t.delete_row i
  | .RemoveDuplicates => t.remove_duplicates

/-- Run a sequence of operations, threading the post-state (which
equals the pre-state whenever an operation fails). -/
def runOps (t : Table) : List Op → Table
  | [] => t
  | op :: ops => runOps (applyOp t op).2 ops

/-- Well-formedness of a table: column names are unique, and every
row's key list is duplicate-free with the same key set as the schema
(the lockstep invariant, stated with `Finset` so that it is decidable
on concrete tables). -/
def WfTable (t : Table) : Prop :=
  t.colNames.Nodup ∧
    ∀ r ∈ t.rows, (r.map Prod.fst).Nodup ∧
      (r.map Prod.fst).toFinset = t.colNames.toFinset

instance : DecidablePred WfTable := fun t => by
  unfold WfTable; infer_instance

/-! ### Dictionary lemmas -/

theorem dictSet_of_not_mem (r : Row) (c : String) (v : Value)
    (h : c ∉ r.map Prod.fst) : dictSet r c v = r ++ [(c, v)] := by
  induction r with
  | nil => rfl
  | cons kv r ih =>
    simp only [List.map_cons, List.mem_cons, not_or] at h
    simp only [dictSet]
    rw [if_neg (fun hh => h.1 hh.symm)]
    rw [ih h.2]
    rfl

theorem dictDel_append_self (r : Row) (c : String) (v : Value)
    (h : c ∉ r.map Prod.fst) : dictDel (r ++ [(c, v)]) c = r := by
  induction r with
  | nil => simp [dictDel]
  | cons kv r ih =>
    simp only [List.map_cons, List.mem_cons, not_or] at h
    simp only [List.cons_append, dictDel]
    rw [if_neg (fun hh => h.1 hh.symm)]
    congr 1
    exact ih h.2

theorem map_fst_dictDel (r : Row) (c : String) :
    (dictDel r c).map Prod.fst = (r.map Prod.fst).erase c := by
  induction r with
  | nil => rfl
  | cons kv r ih =>
    by_cases h : kv.1 = c
    · simp only [dictDel, if_pos h, List.map_cons]
      rw [h, List.erase_cons_head]
    · simp only [dictDel, if_neg h, List.map_cons]
      rw [List.erase_cons_tail (by simp [h]), ih]

theorem mem_of_mem_dictDel {kv : String × Value} (r : Row) (c : String)
    (h : kv ∈ dictDel r c) : kv ∈ r := by
  induction r with
  | nil => simp [dictDel] at h
  | cons kv' r ih =>
    by_cases hc : kv'.1 = c
    · simp only [dictDel, if_pos hc] at h
      exact List.mem_cons_of_mem _ h
    · simp only [dictDel, if_neg hc, List.mem_cons] at h
      rcases h with h | h
      · exact h ▸ List.mem_cons_self _ _
      · exact List.mem_cons_of_mem _ (ih h)

theorem mem_dictSet {kv : String × Value} (r : Row) (c : String) (v : Value)
    (h : kv ∈ dictSet r c v) : kv ∈ r ∨ kv = (c, v) := by
  induction r with
  | nil => simpa [dictSet] using h
  | cons kv' r ih =>
    by_cases hc : kv'.1 = c
    · simp only [dictSet, if_pos hc, List.mem_cons] at h
      rcases h with h | h
      · exact Or.inr h
      · exact Or.inl (List.mem_cons_of_mem _ h)
    · simp only [dictSet, if_neg hc, List.mem_cons] at h
      rcases h with h | h
      · exact Or.inl (h ▸ List.mem_cons_self _ _)
      · rcases ih h with h' | h'
        · exact Or.inl (List.mem_cons_of_mem _ h')
        · exact Or.inr h'

theorem foldl_dictSet_of_nodup (ps : List (String × Value)) :
    ∀ acc : Row, (acc.map Prod.fst ++ ps.map Prod.fst).Nodup →
      ps.foldl (fun d kv => dictSet d kv.1 kv.2) acc = acc ++ ps := by
  induction ps with
  | nil => intro acc _; simp
  | cons kv ps ih =>
    intro acc h
    have hk : kv.1 ∉ acc.map Prod.fst := by
      have hd := (List.nodup_append.mp h).2.2
      intro hmem
      exact hd hmem (by simp)
    have step : dictSet acc kv.1 kv.2 = acc ++ [kv] := by
      rw [dictSet_of_not_mem acc kv.1 kv.2 hk]
    simp only [List.foldl_cons, step]
    rw [ih (acc ++ [kv]) (by simpa [List.append_assoc] using h)]
    simp

theorem dictOfPairs_of_nodup (ps : List (String × Value))
    (h : (ps.map Prod.fst).Nodup) : dictOfPairs ps = ps := by
  simpa using foldl_dictSet_of_nodup ps [] (by simpa using h)

theorem mem_dictOfPairs {kv : String × Value} (ps : List (String × Value))
    (h : kv ∈ dictOfPairs ps) : kv.2 ∈ ps.map Prod.snd := by
  have aux : ∀ (ps : List (String × Value)) (acc : Row), kv ∈ ps.foldl (fun d p => dictSet d p.1 p.2) acc →
      kv ∈ acc ∨ kv.2 ∈ ps.map Prod.snd := by
    intro ps
    induction ps with
    | nil => intro acc h'; exact Or.inl (by simpa using h')
    | cons p ps ih =>
      intro acc h'
      simp only [List.foldl_cons] at h'
      rcases ih _ h' with h'' | h''
      · rcases mem_dictSet _ _ _ h'' with h3 | h3
        · exact Or.inl h3
        · exact Or.inr (by simp [h3])
      · exact Or.inr (by simp [h''])
  rcases aux ps [] h with h' | h'
  · simp at h'
  · exact h'

/-! ### Validation lemmas -/

theorem isinst_vnone (ty : TypeTag) : isinst Value.vnone ty = false := by
  cases ty <;> rfl

theorem validate_values_some_shape :
    ∀ (cols : List (String × TypeTag)) (vs : List Value) (e : Err),
      Table.validate_values cols vs = some e → ∃ c ty s, e = Err.TypeMismatch c ty s := by
  intro cols
  induction cols with
  | nil => intro vs e h; simp [Table.validate_values] at h
  | cons col cols ih =>
    intro vs e h
    cases vs with
    | nil => simp [Table.validate_values] at h
    | cons v vs =>
      by_cases hv : isinst v col.2
      · exact ih vs e (by simpa [Table.validate_values, hv] using h)
      · refine ⟨col.1, col.2, typeName v, ?_⟩
        simp [Table.validate_values, hv] at h
        exact h.symm

theorem validate_values_none_mem :
    ∀ (cols : List (String × TypeTag)) (vs : List Value),
      Table.validate_values cols vs = Option.none → vs.length ≤ cols.length →
        ∀ v ∈ vs, ∃ ty, isinst v ty = true := by
  intro cols
  induction cols with
  | nil =>
    intro vs h hlen v hv
    have : vs = [] := List.length_eq_zero.mp (Nat.le_zero.mp hlen)
    subst this; simp at hv
  | cons col cols ih =>
    intro vs h hlen v hv
    cases vs with
    | nil => simp at hv
    | cons w vs =>
      by_cases hw : isinst w col.2
      · simp only [Table.validate_values, if_pos hw] at h
        rcases List.mem_cons.mp hv with h' | h'
        · exact ⟨col.2, h' ▸ hw⟩
        · exact ih vs h (Nat.le_of_succ_le_succ hlen) v h'
      · simp [Table.validate_values, hw] at h

theorem validate_values_ne_none_of_vnone
    (cols : List (String × TypeTag)) (vs : List Value)
    (hmem : Value.vnone ∈ vs) (hlen : vs.length ≤ cols.length) :
    Table.validate_values cols vs ≠ Option.none := by
  intro h
  rcases validate_values_none_mem cols vs h hlen Value.vnone hmem with ⟨ty, hty⟩
  rw [isinst_vnone ty] at hty
  exact Bool.false_ne_true hty

/-! ### Failures happen before any mutation -/

theorem add_column_fail_unchanged (t : Table) (c : String) (ty : TypeTag)
    (h : (t.add_column c ty).1.isSome) : (t.add_column c ty).2 = t := by
  revert h
  unfold Table.add_column
  split
  · intro _; rfl
  · intro h; simp at h

theorem delete_column_fail_unchanged (t : Table) (c : String)
    (h : (t.delete_column c).1.isSome) : (t.delete_column c).2 = t := by
  revert h
  unfold Table.delete_column
  split
  · intro h; simp at h
  · intro _; rfl

theorem add_row_fail_unchanged (t : Table) (vs : List Value)
    (h : (t.add_row vs).1.isSome) : (t.add_row vs).2 = t := by
  revert h
  unfold Table.add_row
  split
  · intro _; rfl
  · split
    · intro _; rfl
    · intro h; simp at h

theorem update_row_fail_unchanged (t : Table) (i : Nat) (vs : List Value)
    (h : (t.update_row i vs).1.isSome) : (t.update_row i vs).2 = t := by
  revert h
  unfold Table.update_row
  split
  · intro _; rfl
  · split
    · intro _; rfl
    · split
      · intro _; rfl
      · intro h; simp at h

theorem delete_row_fail_unchanged (t : Table) (i : Nat)
    (h : (t.delete_row i).1.isSome) : (t.delete_row i).2 = t := by
  revert h
  unfold Table.delete_row
  split
  · intro h; simp at h
  · intro _; rfl

/-! ### Deduplication: the scan loop keeps first occurrences -/

/-- Modelled on the spec's description of `remove_duplicates`: keep the
first occurrence of each distinct element in original order, dropping
every later occurrence (every later element equal to the kept one). -/
def dedupFirstBy {α : Type} (e : α → α → Bool) : List α → List α
  | [] => []
  | x :: xs => x :: dedupFirstBy e (xs.filter (fun y => !e y x))
termination_by l => l.length
decreasing_by
  simp only [List.length_cons]
  exact Nat.lt_succ_of_le (List.length_filter_le _ _)

/-- Row equality as `remove_duplicates` sees it: Python `==` of the two
value tuples over the current columns. -/
def rowEqB (cols : List (String × TypeTag)) (r1 r2 : Row) : Bool :=
  Table.keyEq (Table.rowKey cols r1) (Table.rowKey cols r2)

theorem memKey_cons (k s : List (Option Value)) (seen : List (List (Option Value))) :
    Table.memKey k (s :: seen) = (Table.keyEq k s || Table.memKey k seen) := by
  simp [Table.memKey]

theorem dedupLoop_eq_dedupFirstBy (cols : List (String × TypeTag)) :
    ∀ (l : List Row) (seen : List (List (Option Value))) (acc : List Row),
      Table.dedupLoop cols seen acc l =
        acc ++ dedupFirstBy (rowEqB cols)
          (l.filter (fun r => !Table.memKey (Table.rowKey cols r) seen)) := by
  intro l
  induction l with
  | nil => intro seen acc; simp [Table.dedupLoop, dedupFirstBy]
  | cons r rs ih =>
    intro seen acc
    by_cases hm : Table.memKey (Table.rowKey cols r) seen
    · rw [show Table.dedupLoop cols seen acc (r :: rs) = Table.dedupLoop cols seen acc rs by
        simp [Table.dedupLoop, hm]]
      rw [ih seen acc]
      congr 2
      rw [List.filter_cons_of_neg (by simp [hm])]
    · rw [show Table.dedupLoop cols seen acc (r :: rs) =
          Table.dedupLoop cols (Table.rowKey cols r :: seen) (acc ++ [r]) rs by
        simp [Table.dedupLoop, hm]]
      rw [ih _ _]
      rw [List.filter_cons_of_pos (by simp [hm])]
      rw [show dedupFirstBy (rowEqB cols) (r :: rs.filter (fun x => !Table.memKey (Table.rowKey cols x) seen)) =
          r :: dedupFirstBy (rowEqB cols)
            ((rs.filter (fun x => !Table.memKey (Table.rowKey cols x) seen)).filter
              (fun y => !rowEqB cols y r)) from by rw [dedupFirstBy]]
      rw [List.filter_filter]
      have hpred : (fun x => !Table.memKey (Table.rowKey cols x) (Table.rowKey cols r :: seen)) =
          (fun x => !rowEqB cols x r && !Table.memKey (Table.rowKey cols x) seen) := by
        funext x
        rw [memKey_cons, Bool.not_or]
        rfl
      rw [hpred]
      simp [List.append_assoc]

/-- The rows after `remove_duplicates`: the first occurrence of each
distinct row (by Python equality of its value tuple over the current
columns), in original relative order. -/
theorem remove_duplicates_rows (t : Table) :
    (t.remove_duplicates).2.rows = dedupFirstBy (rowEqB t.column_info) t.rows := by
  show Table.dedupLoop t.column_info [] [] t.rows = _
  rw [dedupLoop_eq_dedupFirstBy t.column_info t.rows [] []]
  simp [Table.memKey]

theorem mem_of_mem_dedupFirstBy {α : Type} (eqv : α → α → Bool) :
    ∀ (l : List α) (x : α), x ∈ dedupFirstBy eqv l → x ∈ l := by
  intro l
  induction l using dedupFirstBy.induct (e := eqv) with
  | case1 => intro x h; simp [dedupFirstBy] at h
  | case2 y ys ih =>
    intro x h
    rw [dedupFirstBy] at h
    rcases List.mem_cons.mp h with h' | h'
    · exact h' ▸ List.mem_cons_self _ _
    · exact List.mem_cons_of_mem _ (List.mem_of_mem_filter (ih x h'))

theorem dedupFirstBy_idem {α : Type} (eqv : α → α → Bool) :
    ∀ l : List α, dedupFirstBy eqv (dedupFirstBy eqv l) = dedupFirstBy eqv l := by
  intro l
  induction l using dedupFirstBy.induct (e := eqv) with
  | case1 => simp [dedupFirstBy]
  | case2 y ys ih =>
    rw [dedupFirstBy, dedupFirstBy]
    have hself : (dedupFirstBy eqv (ys.filter (fun z => !eqv z y))).filter (fun z => !eqv z y) =
        dedupFirstBy eqv (ys.filter (fun z => !eqv z y)) := by
      rw [List.filter_eq_self]
      intro a ha
      exact (List.mem_filter.mp (mem_of_mem_dedupFirstBy eqv _ a ha)).2
    rw [hself, ih]

/-! ### Preservation of the lockstep invariant -/

theorem map_eraseIdx_comm {α β : Type} (f : α → β) (l : List α) (i : Nat) :
    (l.eraseIdx i).map f = (l.map f).eraseIdx i := by
  simp [List.eraseIdx_eq_take_drop_succ, List.map_take, List.map_drop]

theorem toFinset_erase_of_nodup (l : List String) (c : String) (h : l.Nodup) :
    (l.erase c).toFinset = l.toFinset.erase c := by
  ext a
  rw [List.mem_toFinset, Finset.mem_erase, List.mem_toFinset, h.mem_erase_iff]

theorem colNames_delete_column (t : Table) (c : String) (h : c ∈ t.colNames) :
    ((t.delete_column c).2).colNames = t.colNames.erase c := by
  unfold Table.delete_column
  rw [if_pos h]
  show (t.column_info.eraseIdx (t.colNames.indexOf c)).map Prod.fst = _
  rw [map_eraseIdx_comm]
  exact List.eraseIdx_indexOf_eq_erase c t.colNames

theorem map_fst_append_single {β : Type} (l : List (String × β)) (c : String) (b : β) :
    (l ++ [(c, b)]).map Prod.fst = l.map Prod.fst ++ [c] := by
  simp

theorem nodup_append_single (l : List String) (c : String)
    (hnd : l.Nodup) (hc : c ∉ l) : (l ++ [c]).Nodup := by
  rw [List.nodup_append]
  refine ⟨hnd, List.nodup_singleton c, ?_⟩
  intro x hx hx'
  rw [List.mem_singleton] at hx'
  subst hx'
  exact hc hx

theorem wf_add_column (t : Table) (c : String) (ty : TypeTag)
    (h : WfTable t) : WfTable (t.add_column c ty).2 := by
  by_cases hc : c ∈ t.colNames
  · rw [add_column_fail_unchanged t c ty (by simp [Table.add_column, hc])]
    exact h
  · unfold Table.add_column
    rw [if_neg hc]
    have hnames : (⟨t.column_info ++ [(c, ty)],
        t.rows.map (fun r => dictSet r c Value.vnone)⟩ : Table).colNames = t.colNames ++ [c] :=
      map_fst_append_single t.column_info c ty
    constructor
    · rw [show (Option.none, (⟨t.column_info ++ [(c, ty)],
          t.rows.map (fun r => dictSet r c Value.vnone)⟩ : Table)).2.colNames =
          t.colNames ++ [c] from hnames]
      exact nodup_append_single t.colNames c h.1 hc
    · intro r hr
      simp only [List.mem_map] at hr
      obtain ⟨r0, hr0, rfl⟩ := hr
      obtain ⟨hnd, hset⟩ := h.2 r0 hr0
      have hcr : c ∉ r0.map Prod.fst := by
        intro hmem
        exact hc (by
          have hcf : c ∈ (r0.map Prod.fst).toFinset := List.mem_toFinset.mpr hmem
          rw [hset] at hcf
          exact List.mem_toFinset.mp hcf)
      rw [dictSet_of_not_mem r0 c Value.vnone hcr, map_fst_append_single]
      constructor
      · exact nodup_append_single _ c hnd hcr
      · rw [show (Option.none, (⟨t.column_info ++ [(c, ty)],
            t.rows.map (fun r => dictSet r c Value.vnone)⟩ : Table)).2.colNames =
            t.colNames ++ [c] from hnames]
        rw [List.toFinset_append, List.toFinset_append, hset]

theorem wf_delete_column (t : Table) (c : String)
    (h : WfTable t) : WfTable (t.delete_column c).2 := by
  by_cases hc : c ∈ t.colNames
  · constructor
    · rw [colNames_delete_column t c hc]
      exact h.1.erase c
    · intro r hr
      rw [show (t.delete_column c).2.rows = t.rows.map (fun r => dictDel r c) by
        simp [Table.delete_column, hc]] at hr
      simp only [List.mem_map] at hr
      obtain ⟨r0, hr0, rfl⟩ := hr
      obtain ⟨hnd, hset⟩ := h.2 r0 hr0
      rw [map_fst_dictDel, colNames_delete_column t c hc]
      refine ⟨hnd.erase c, ?_⟩
      rw [toFinset_erase_of_nodup _ c hnd, toFinset_erase_of_nodup _ c h.1, hset]
  · rw [delete_column_fail_unchanged t c (by simp [Table.delete_column, hc])]
    exact h

theorem new_row_eq_zip (t : Table) (vs : List Value)
    (hnd : t.colNames.Nodup) (hlen : vs.length = t.column_info.length) :
    dictOfPairs (t.colNames.zip vs) = t.colNames.zip vs := by
  apply dictOfPairs_of_nodup
  rw [List.map_fst_zip]
  · exact hnd
  · rw [hlen]
    exact Nat.le_of_eq (t.column_info.length_map Prod.fst)

theorem wf_new_row (t : Table) (vs : List Value)
    (hnd : t.colNames.Nodup) (hlen : vs.length = t.column_info.length) :
    ((dictOfPairs (t.colNames.zip vs)).map Prod.fst).Nodup ∧
      ((dictOfPairs (t.colNames.zip vs)).map Prod.fst).toFinset = t.colNames.toFinset := by
  rw [new_row_eq_zip t vs hnd hlen]
  rw [List.map_fst_zip t.colNames vs (by
    rw [hlen]
    exact Nat.le_of_eq (t.column_info.length_map Prod.fst))]
  exact ⟨hnd, rfl⟩

theorem wf_add_row (t : Table) (vs : List Value)
    (h : WfTable t) : WfTable (t.add_row vs).2 := by
  unfold Table.add_row
  split
  · exact h
  · split
    · exact h
    · refine ⟨h.1, ?_⟩
      intro r hr
      simp only [List.mem_append, List.mem_singleton] at hr
      rcases hr with hr | hr
      · exact h.2 r hr
      · subst hr
        exact wf_new_row t vs h.1 (by omega)

theorem wf_update_row (t : Table) (i : Nat) (vs : List Value)
    (h : WfTable t) : WfTable (t.update_row i vs).2 := by
  unfold Table.update_row
  split
  · exact h
  · split
    · exact h
    · split
      · exact h
      · refine ⟨h.1, ?_⟩
        intro r hr
        rcases List.mem_or_eq_of_mem_set hr with hr' | hr'
        · exact h.2 r hr'
        · subst hr'
          exact wf_new_row t vs h.1 (by omega)

theorem wf_delete_row (t : Table) (i : Nat)
    (h : WfTable t) : WfTable (t.delete_row i).2 := by
  unfold Table.delete_row
  split
  · exact ⟨h.1, fun r hr => h.2 r (List.eraseIdx_subset t.rows i hr)⟩
  · exact h

theorem wf_remove_duplicates (t : Table)
    (h : WfTable t) : WfTable (t.remove_duplicates).2 := by
  refine ⟨h.1, ?_⟩
  intro r hr
  rw [remove_duplicates_rows t] at hr
  exact h.2 r (mem_of_mem_dedupFirstBy _ t.rows r hr)

theorem wf_applyOp (t : Table) (op : Op)
    (h : WfTable t) : WfTable (applyOp t op).2 := by
  cases op with
  | AddColumn c ty => exact wf_add_column t c ty h
  | DeleteColumn c => exact wf_delete_column t c h
  | AddRow vs => exact wf_add_row t vs h
  | UpdateRow i vs => exact wf_update_row t i vs h
  | DeleteRow i => exact wf_delete_row t i h
  | RemoveDuplicates => exact wf_remove_duplicates t h

theorem wf_runOps (ops : List Op) :
    ∀ t : Table, WfTable t → WfTable (runOps t ops) := by
  induction ops with
  | nil => intro t h; exact h
  | cons op ops ih =>
    intro t h
    exact ih _ (wf_applyOp t op h)

/-! ### Absent markers can only be introduced by add_column -/

/-- The rows of `t` contain no absent marker anywhere. -/
def noAbsentRows (t : Table) : Prop :=
  ∀ r ∈ t.rows, ∀ kv ∈ r, kv.2 ≠ Value.vnone

instance : DecidablePred noAbsentRows := fun t => by
  unfold noAbsentRows; infer_instance

/-- Whether an operation is an `add_column` call. -/
def isAddColumn : Op → Bool
  | .AddColumn _ _ => true
  | _ => false

theorem new_row_no_vnone (t : Table) (vs : List Value)
    (hlen : vs.length = t.column_info.length)
    (hval : Table.validate_values t.column_info vs = Option.none) :
    ∀ kv ∈ dictOfPairs (t.colNames.zip vs), kv.2 ≠ Value.vnone := by
  intro kv hkv hv
  have h2 : kv.2 ∈ (t.colNames.zip vs).map Prod.snd := mem_dictOfPairs _ hkv
  rcases List.mem_map.mp h2 with ⟨p, hp, hp2⟩
  obtain ⟨a, b⟩ := p
  have hvs : b ∈ vs := (List.of_mem_zip hp).2
  rcases validate_values_none_mem t.column_info vs hval (le_of_eq hlen) b hvs with ⟨ty, hty⟩
  rw [show b = Value.vnone from by rw [← hv, ← hp2], isinst_vnone ty] at hty
  exact Bool.false_ne_true hty

theorem noAbsent_applyOp (t : Table) (op : Op) (hop : isAddColumn op = false)
    (h : noAbsentRows t) : noAbsentRows (applyOp t op).2 := by
  cases op with
  | AddColumn c ty => simp [isAddColumn] at hop
  | DeleteColumn c =>
    show noAbsentRows (t.delete_column c).2
    unfold Table.delete_column
    split
    · intro r hr kv hkv
      simp only [List.mem_map] at hr
      obtain ⟨r0, hr0, rfl⟩ := hr
      exact h r0 hr0 kv (mem_of_mem_dictDel r0 c hkv)
    · exact h
  | AddRow vs =>
    show noAbsentRows (t.add_row vs).2
    unfold Table.add_row
    split
    · exact h
    · split
      · exact h
      · intro r hr kv hkv
        simp only [List.mem_append, List.mem_singleton] at hr
        rcases hr with hr | hr
        · exact h r hr kv hkv
        · subst hr
          exact new_row_no_vnone t vs (by omega) (by assumption) kv hkv
  | UpdateRow i vs =>
    show noAbsentRows (t.update_row i vs).2
    unfold Table.update_row
    split
    · exact h
    · split
      · exact h
      · split
        · exact h
        · intro r hr kv hkv
          rcases List.mem_or_eq_of_mem_set hr with hr' | hr'
          · exact h r hr' kv hkv
          · subst hr'
            exact new_row_no_vnone t vs (by omega) (by assumption) kv hkv
  | DeleteRow i =>
    show noAbsentRows (t.delete_row i).2
    unfold Table.delete_row
    split
    · intro r hr
      exact h r (List.eraseIdx_subset t.rows i hr)
    · exact h
  | RemoveDuplicates =>
    intro r hr
    rw [show (applyOp t Op.RemoveDuplicates).2.rows =
        dedupFirstBy (rowEqB t.column_info) t.rows from remove_duplicates_rows t] at hr
    exact h r (mem_of_mem_dedupFirstBy _ t.rows r hr)

theorem noAbsent_runOps (ops : List Op) :
    ∀ t : Table, (∀ op ∈ ops, isAddColumn op = false) →
      noAbsentRows t → noAbsentRows (runOps t ops) := by
  induction ops with
  | nil => intro t _ h; exact h
  | cons op ops ih =>
    intro t hops h
    exact ih _ (fun o ho => hops o (List.mem_cons_of_mem _ ho))
      (noAbsent_applyOp t op (hops op (List.mem_cons_self _ _)) h)

/-! ### Miscellany -/

theorem table_eq_of_fields (a b : Table)
    (h1 : a.column_info = b.column_info) (h2 : a.rows = b.rows) : a = b := by
  cases a
  cases b
  cases h1
  cases h2
  rfl

/-! ### Concrete tables used by the claim theorems -/

/-- A table with a single integer column and no rows. -/
def ageTable : Table := Table.mk [("Age", TypeTag.int)] []

/-- A table with a single integer column holding one integer row. -/
def ageTableOneRow : Table := Table.mk [("Age", TypeTag.int)] [[("Age", Value.int 25)]]

/-- A one-string-column table with one row, used for the atomicity and
absent-marker witnesses. -/
def oneColTable : Table := Table.mk [("A", TypeTag.str)] [[("A", Value.str "x")]]

/-- A one-string-column table with no rows. -/
def emptyColTable : Table := Table.mk [("A", TypeTag.str)] []

/-- A one-string-column table with two rows, used for the row-deletion
witness. -/
def twoRowTable : Table :=
  Table.mk [("A", TypeTag.str)] [[("A", Value.str "x")], [("A", Value.str "y")]]

/-- The spec's deduplication scenario: schema
`[("Name", string), ("Age", integer)]`, rows inserted via `add_row`:
`("Alice", 25)`, `("Bob", 30)`, `("Alice", 25)`. -/
def scenarioTable : Table :=
  ((((Table.mk [("Name", TypeTag.str), ("Age", TypeTag.int)] []).add_row
      [Value.str "Alice", Value.int 25]).2.add_row
      [Value.str "Bob", Value.int 30]).2.add_row
      [Value.str "Alice", Value.int 25]).2

/-- A reachable table holding an absent marker: one row is inserted and
then a column `"A"` is added, so that row's `"A"` entry is the absent
marker. -/
def noneTable : Table :=
  (((Table.mk [("B", TypeTag.str)] []).add_row [Value.str "x"]).2.add_column
    "A" TypeTag.str).2

/-- A database holding one table named `"t"`. -/
def oneTableDB : Database := Database.mk [("t", Table.mk [] [])]

/-! ### Claim theorems -/

/-- C1 (code bug): the claim — and the spec — require that a boolean
value never satisfies an integer column, so that `add_row`/`update_row`
called with a boolean at an integer column's position fail with
`TypeMismatch` and leave the rows unchanged.  The code instead validates
with Python's `isinstance`, and `isinstance(True, int)` is `True`
because `bool` subclasses `int`: both calls succeed and store the
boolean under the integer column.  This theorem evaluates the code at
the failing inputs. -/
theorem bool_value_accepted_for_int_column :
    ageTable.add_row [Value.bool true] =
      (Option.none, Table.mk [("Age", TypeTag.int)] [[("Age", Value.bool true)]]) ∧
    ageTableOneRow.update_row 0 [Value.bool false] =
      (Option.none, Table.mk [("Age", TypeTag.int)] [[("Age", Value.bool false)]]) ∧
    isinst (Value.bool true) TypeTag.int = true := by
  decide

/-- C2 (counterexample): contrary to the claim, `add_table` performs no
schema validation at all.  On an empty database, adding a table whose
column list repeats the name `"A"` does not fail: it succeeds and
creates the table with the duplicated schema. -/
theorem add_table_accepts_duplicate_columns :
    ((Database.mk []).add_table "t" [("A", TypeTag.int), ("A", TypeTag.str)]).1 =
      Option.none ∧
    ((Database.mk []).add_table "t" [("A", TypeTag.int), ("A", TypeTag.str)]).2 =
      Database.mk [("t", Table.mk [("A", TypeTag.int), ("A", TypeTag.str)] [])] := by
  decide

/-- C2 (amended): `add_table` fails (with `DuplicateTable`, catalog
unchanged) exactly when the name is already bound; for a fresh name it
creates an empty table with the given column list as-is — no
well-formedness validation of the columns is performed, so a column
list with repeated names is accepted. -/
theorem add_table_spec (db : Database) (name : String)
    (cols : List (String × TypeTag)) :
    (name ∈ db.tables.map Prod.fst →
      db.add_table name cols = (some (Err.DuplicateTable name), db)) ∧
    (name ∉ db.tables.map Prod.fst →
      db.add_table name cols =
        (Option.none, Database.mk (db.tables ++ [(name, Table.mk cols [])]))) := by
  constructor
  · intro h
    unfold Database.add_table
    rw [if_pos h]
  · intro h
    unfold Database.add_table
    rw [if_neg h]

/-- Witness for `add_table_spec` at concrete inputs: a taken name is
rejected with the database unchanged; a fresh name with a duplicated
column list is accepted. -/
theorem add_table_spec_witness :
    oneTableDB.add_table "t" [] = (some (Err.DuplicateTable "t"), oneTableDB) ∧
    oneTableDB.add_table "u" [("A", TypeTag.int), ("A", TypeTag.str)] =
      (Option.none, Database.mk
        (oneTableDB.tables ++ [("u", Table.mk [("A", TypeTag.int), ("A", TypeTag.str)] [])])) :=
  ⟨(add_table_spec oneTableDB "t" []).1 (by decide),
   (add_table_spec oneTableDB "u" [("A", TypeTag.int), ("A", TypeTag.str)]).2 (by decide)⟩

/-- C4: every failing invocation of `add_column`, `add_row` or
`update_row` leaves the table exactly as it was — in the source each of
these raises before any mutation, so whenever the result carries an
error the resulting table equals the input table. -/
theorem failing_ops_preserve_table (t : Table) (c : String) (ty : TypeTag)
    (vs : List Value) (i : Nat) :
    ((t.add_column c ty).1.isSome → (t.add_column c ty).2 = t) ∧
    ((t.add_row vs).1.isSome → (t.add_row vs).2 = t) ∧
    ((t.update_row i vs).1.isSome → (t.update_row i vs).2 = t) :=
  ⟨add_column_fail_unchanged t c ty, add_row_fail_unchanged t vs,
   update_row_fail_unchanged t i vs⟩

/-- Witness for `failing_ops_preserve_table`: a duplicate-column
failure, an arity failure and an index failure each leave the concrete
table unchanged. -/
theorem failing_ops_preserve_table_witness :
    (emptyColTable.add_column "A" TypeTag.int).2 = emptyColTable ∧
    (emptyColTable.add_row []).2 = emptyColTable ∧
    (emptyColTable.update_row 0 []).2 = emptyColTable :=
  ⟨(failing_ops_preserve_table emptyColTable "A" TypeTag.int [] 0).1 (by decide),
   (failing_ops_preserve_table emptyColTable "A" TypeTag.int [] 0).2.1 (by decide),
   (failing_ops_preserve_table emptyColTable "A" TypeTag.int [] 0).2.2 (by decide)⟩

/-- C9: `delete_row` fails with `IndexOutOfBounds` and leaves the rows
unchanged for every index outside `[0, len(rows))` (indices arrive
through Flask's `<int:…>` converter and are therefore non-negative);
for a valid index it removes exactly the row at that position: earlier
rows keep their positions and every later row shifts down by one. -/
theorem delete_row_spec (t : Table) (i : Nat) :
    (t.rows.length ≤ i → t.delete_row i = (some Err.IndexOutOfBounds, t)) ∧
    (i < t.rows.length →
      (t.delete_row i).1 = Option.none ∧
      (t.delete_row i).2.column_info = t.column_info ∧
      (t.delete_row i).2.rows.length + 1 = t.rows.length ∧
      (∀ j, j < i → (t.delete_row i).2.rows[j]? = t.rows[j]?) ∧
      (∀ j, i ≤ j → (t.delete_row i).2.rows[j]? = t.rows[j + 1]?)) := by
  constructor
  · intro hle
    unfold Table.delete_row
    rw [if_neg (by omega)]
  · intro hlt
    unfold Table.delete_row
    rw [if_pos hlt]
    refine ⟨rfl, rfl, ?_, ?_, ?_⟩
    · exact List.length_eraseIdx_add_one hlt
    · intro j hj
      exact List.getElem?_eraseIdx_of_lt t.rows i j hj
    · intro j hj
      exact List.getElem?_eraseIdx_of_ge t.rows i j hj

/-- Witness for `delete_row_spec`: on a two-row table, index 5 fails
and leaves the table unchanged, while deleting index 0 succeeds and the
former second row moves to index 0. -/
theorem delete_row_spec_witness :
    twoRowTable.delete_row 5 = (some Err.IndexOutOfBounds, twoRowTable) ∧
    (twoRowTable.delete_row 0).1 = Option.none ∧
    (twoRowTable.delete_row 0).2.rows[0]? = twoRowTable.rows[1]? :=
  ⟨(delete_row_spec twoRowTable 5).1 (by decide),
   ((delete_row_spec twoRowTable 0).2 (by decide)).1,
   ((delete_row_spec twoRowTable 0).2 (by decide)).2.2.2.2 0 (by decide)⟩

/-- C5: `remove_duplicates` keeps exactly the first occurrence of each
distinct row — rows compared by Python equality of their value tuples
over the current columns in schema order (`rowEqB`) — in original
relative order, dropping all later occurrences (`dedupFirstBy`); and on
the spec's scenario (schema Name/Age, rows Alice-25, Bob-30, Alice-25)
the result is exactly Alice-25 then Bob-30. -/
theorem remove_duplicates_keeps_first_occurrences :
    (∀ t : Table,
      (t.remove_duplicates).2.column_info = t.column_info ∧
      (t.remove_duplicates).2.rows = dedupFirstBy (rowEqB t.column_info) t.rows) ∧
    (scenarioTable.remove_duplicates).2.rows =
      [[("Name", Value.str "Alice"), ("Age", Value.int 25)],
       [("Name", Value.str "Bob"), ("Age", Value.int 30)]] := by
  refine ⟨fun t => ⟨rfl, remove_duplicates_rows t⟩, ?_⟩
  decide

/-- C6: `remove_duplicates` is idempotent — applying it twice yields
exactly the same table (hence the same row sequence) as applying it
once. -/
theorem remove_duplicates_idempotent (t : Table) :
    ((t.remove_duplicates).2.remove_duplicates).2 = (t.remove_duplicates).2 := by
  apply table_eq_of_fields
  · rfl
  · rw [remove_duplicates_rows ((t.remove_duplicates).2), remove_duplicates_rows t]
    rw [show (t.remove_duplicates).2.column_info = t.column_info from rfl]
    exact dedupFirstBy_idem (rowEqB t.column_info) t.rows

/-- C7: for a column name `c` outside the schema (and, per the lockstep
invariant, outside every row), `add_column c ty` succeeds and
`delete_column c` right after restores the original table exactly —
prior schema, every row's prior key set (indeed the prior rows
themselves), in the original order. -/
theorem add_delete_column_roundtrip (t : Table) (c : String) (ty : TypeTag)
    (h1 : c ∉ t.colNames) (h2 : ∀ r ∈ t.rows, c ∉ r.map Prod.fst) :
    (t.add_column c ty).1 = Option.none ∧
    (t.add_column c ty).2.delete_column c = (Option.none, t) := by
  have hadd : t.add_column c ty =
      (Option.none, (⟨t.column_info ++ [(c, ty)],
        t.rows.map (fun r => dictSet r c Value.vnone)⟩ : Table)) := by
    unfold Table.add_column
    rw [if_neg h1]
  refine ⟨by rw [hadd], ?_⟩
  rw [hadd]
  have hnames : (⟨t.column_info ++ [(c, ty)],
      t.rows.map (fun r => dictSet r c Value.vnone)⟩ : Table).colNames =
      t.colNames ++ [c] := map_fst_append_single t.column_info c ty
  unfold Table.delete_column
  rw [if_pos (by rw [hnames]; exact List.mem_append_right _ (List.mem_singleton_self c))]
  have hidx : ((⟨t.column_info ++ [(c, ty)],
      t.rows.map (fun r => dictSet r c Value.vnone)⟩ : Table).colNames).indexOf c =
      t.column_info.length := by
    rw [hnames, List.indexOf_append_of_not_mem h1, List.indexOf_cons_self]
    simp [Table.colNames]
  have hA : (t.column_info ++ [(c, ty)]).eraseIdx t.column_info.length =
      t.column_info := by
    rw [List.eraseIdx_append_of_length_le (Nat.le_refl _)]
    simp
  have hB : (t.rows.map (fun r => dictSet r c Value.vnone)).map
      (fun r => dictDel r c) = t.rows := by
    rw [List.map_map]
    have hid : ∀ r ∈ t.rows,
        ((fun r => dictDel r c) ∘ fun r => dictSet r c Value.vnone) r = id r := by
      intro r hr
      show dictDel (dictSet r c Value.vnone) c = r
      rw [dictSet_of_not_mem r c Value.vnone (h2 r hr),
        dictDel_append_self r c Value.vnone (h2 r hr)]
    rw [List.map_congr_left hid, List.map_id]
  refine Prod.ext rfl (table_eq_of_fields _ _ ?_ ?_)
  · show (t.column_info ++ [(c, ty)]).eraseIdx _ = t.column_info
    rw [hidx, hA]
  · exact hB

/-- Witness for `add_delete_column_roundtrip`: adding then deleting a
fresh column `"B"` on a concrete one-row table returns the table
unchanged. -/
theorem add_delete_column_roundtrip_witness :
    (oneColTable.add_column "B" TypeTag.int).1 = Option.none ∧
    (oneColTable.add_column "B" TypeTag.int).2.delete_column "B" =
      (Option.none, oneColTable) :=
  add_delete_column_roundtrip oneColTable "B" TypeTag.int (by decide)
    (by decide)

/-- C8: the lockstep invariant is preserved by every sequence of engine
operations: starting from a well-formed table (unique column names and
every row's key set equal to the column-name set), after any sequence
of `add_column`, `delete_column`, `add_row`, `update_row`, `delete_row`
and `remove_duplicates` — failing operations included, since a failing
operation returns the table unchanged — the table is still well-formed;
instantiating the sequence at every prefix gives the invariant before
and after each operation. -/
theorem lockstep_invariant_preserved (t : Table) (ops : List Op)
    (h : WfTable t) : WfTable (runOps t ops) :=
  wf_runOps ops t h

/-- Witness for `lockstep_invariant_preserved`: a concrete well-formed
table stays well-formed across a mixed operation sequence (including a
failing duplicate `add_column`). -/
theorem lockstep_invariant_preserved_witness :
    WfTable oneColTable ∧
    WfTable (runOps oneColTable
      [Op.AddColumn "Age" TypeTag.int, Op.AddColumn "Age" TypeTag.int,
       Op.AddRow [Value.str "y", Value.int 3], Op.UpdateRow 0 [Value.str "z", Value.int 4],
       Op.RemoveDuplicates, Op.DeleteColumn "Age", Op.DeleteRow 0]) :=
  ⟨by decide, lockstep_invariant_preserved oneColTable
    [Op.AddColumn "Age" TypeTag.int, Op.AddColumn "Age" TypeTag.int,
     Op.AddRow [Value.str "y", Value.int 3], Op.UpdateRow 0 [Value.str "z", Value.int 4],
     Op.RemoveDuplicates, Op.DeleteColumn "Age", Op.DeleteRow 0] (by decide)⟩

/-- C3 (counterexample): the claim predicts that `noneTable` (reached
by inserting row `"x"` and then adding column `"A"`, so the row stores
the absent marker under `"A"`) renders as a header line immediately
followed by one row line, with the absent marker as the empty string —
i.e. `["B|A", "x|"]`.  The code instead prints a divider line of dashes
after the header, and renders the stored absent marker via `str(None)`
as `"None"`: the output is `["B|A", "---", "x|None"]`. -/
theorem display_renders_stored_absent_as_None :
    dictGet (noneTable.rows.headD []) "A" = some Value.vnone ∧
    noneTable.display_table = ["B|A", "---", "x|None"] ∧
    noneTable.display_table ≠ ["B|A", "x|"] := by
  decide

/-- Modelled from the amended spec sentence for `render`: a header line
of the column names joined by `"|"`, then a divider line of `"-"`
repeated to the header's length, then exactly one line per row in row
order; in a row line each cell is the stored value rendered as text by
Python `str` — so a stored absent marker renders as `"None"` — while a
column name missing from the row entirely renders as the empty
string. -/
def renderCell_spec (r : Row) (c : String) : String :=
  ((dictGet r c).map pyStr).getD ""

/-- The full amended rendering, built per the amended spec's wording
over the column-name list. -/
def render_spec (t : Table) : List String :=
  String.intercalate "|" t.colNames ::
    String.mk (List.replicate (String.intercalate "|" t.colNames).length '-') ::
      t.rows.map (fun r =>
        String.intercalate "|" (t.colNames.map (fun c => renderCell_spec r c)))

/-- C3 (amended): `display_table` produces exactly the amended
rendering `render_spec` — header, divider, one line per row — and the
cell renderer maps a stored absent marker to `"None"` (not the empty
string) and a missing key to the empty string. -/
theorem display_table_spec (t : Table) :
    t.display_table = render_spec t ∧
    (∀ (r : Row) (c : String),
      dictGet r c = some Value.vnone → renderCell_spec r c = "None") ∧
    (∀ (r : Row) (c : String),
      dictGet r c = Option.none → renderCell_spec r c = "") := by
  refine ⟨?_, ?_, ?_⟩
  · have hcell : ∀ (r : Row) (c : String),
        Table.displayCell r c = renderCell_spec r c := by
      intro r c
      unfold Table.displayCell renderCell_spec
      cases dictGet r c <;> rfl
    simp only [Table.display_table, render_spec]
    congr 2
    apply List.map_congr_left
    intro r _
    congr 1
    rw [Table.colNames, List.map_map]
    exact List.map_congr_left (fun a _ => hcell r a.1)
  · intro r c h
    rw [renderCell_spec, h]
    rfl
  · intro r c h
    rw [renderCell_spec, h]
    rfl

/-- Witness for `display_table_spec`: the refinement evaluated on the
concrete `noneTable`, and the cell renderer on a stored absent marker
and on a missing key. -/
theorem display_table_spec_witness :
    noneTable.display_table = render_spec noneTable ∧
    renderCell_spec [("A", Value.vnone)] "A" = "None" ∧
    renderCell_spec [] "A" = "" :=
  ⟨(display_table_spec noneTable).1,
   (display_table_spec noneTable).2.1 [("A", Value.vnone)] "A" (by decide),
   (display_table_spec noneTable).2.2 [] "A" (by decide)⟩

/-- C10: on tables whose columns carry the four supported type tags
(all tables of this embedding), `add_row` and `update_row` reject a
value list containing the absent marker: with matching arity (and a
valid index for `update_row`) the call fails with a `TypeMismatch` and
the table is unchanged, because `isinstance(None, ty)` is false for
every supported column type; consequently, under any operation
sequence containing no `add_column`, rows that contain no absent
marker never acquire one — only `add_column` introduces the marker. -/
theorem absent_marker_rejected (t : Table) (vs : List Value) (i : Nat)
    (ops : List Op) :
    (vs.length = t.column_info.length → Value.vnone ∈ vs →
      (∃ c ty s, (t.add_row vs).1 = some (Err.TypeMismatch c ty s)) ∧
      (t.add_row vs).2 = t) ∧
    (i < t.rows.length → vs.length = t.column_info.length → Value.vnone ∈ vs →
      (∃ c ty s, (t.update_row i vs).1 = some (Err.TypeMismatch c ty s)) ∧
      (t.update_row i vs).2 = t) ∧
    ((∀ op ∈ ops, isAddColumn op = false) → noAbsentRows t →
      noAbsentRows (runOps t ops)) := by
  have hval : vs.length = t.column_info.length →
      Value.vnone ∈ vs →
      ∃ c ty s, Table.validate_values t.column_info vs =
        some (Err.TypeMismatch c ty s) := by
    intro hlen hmem
    have hne := validate_values_ne_none_of_vnone t.column_info vs hmem (le_of_eq hlen)
    obtain ⟨e, he⟩ := Option.ne_none_iff_exists'.mp hne
    obtain ⟨c, ty, s, rfl⟩ := validate_values_some_shape t.column_info vs e he
    exact ⟨c, ty, s, he⟩
  refine ⟨?_, ?_, fun hops h0 => noAbsent_runOps ops t hops h0⟩
  · intro hlen hmem
    obtain ⟨c, ty, s, he⟩ := hval hlen hmem
    constructor
    · refine ⟨c, ty, s, ?_⟩
      unfold Table.add_row
      rw [if_neg (by omega), he]
    · apply add_row_fail_unchanged
      unfold Table.add_row
      rw [if_neg (by omega), he]
      rfl
  · intro hi hlen hmem
    obtain ⟨c, ty, s, he⟩ := hval hlen hmem
    constructor
    · refine ⟨c, ty, s, ?_⟩
      unfold Table.update_row
      rw [if_neg (by omega), if_neg (by omega), he]
    · apply update_row_fail_unchanged
      unfold Table.update_row
      rw [if_neg (by omega), if_neg (by omega), he]
      rfl

/-- Witness for `absent_marker_rejected`: on a concrete one-column
table, `add_row [None]` and `update_row 0 [None]` leave the table
unchanged, and a `delete_row` sequence keeps the rows free of absent
markers. -/
theorem absent_marker_rejected_witness :
    (oneColTable.add_row [Value.vnone]).2 = oneColTable ∧
    (oneColTable.update_row 0 [Value.vnone]).2 = oneColTable ∧
    noAbsentRows (runOps oneColTable [Op.DeleteRow 0]) :=
  ⟨((absent_marker_rejected oneColTable [Value.vnone] 0 [Op.DeleteRow 0]).1
      (by decide) (by decide)).2,
   ((absent_marker_rejected oneColTable [Value.vnone] 0 [Op.DeleteRow 0]).2.1
      (by decide) (by decide) (by decide)).2,
   (absent_marker_rejected oneColTable [Value.vnone] 0 [Op.DeleteRow 0]).2.2
     (by decide) (by decide)⟩
